import Mathlib

/-!
Verification of the go-event-sourcing library core.

The development shallowly embeds the library's data model and operations:

* `ges.Metadata` and `ges.Metadata.Merge`        (metadata.go)
* `ges.VersionConflictError`, `ges.ErrVersionConflict`, `ges.errorsIs`
                                                  (errors in snapshot.go)
* `ges.Snapshot`                                  (snapshot.go)
* `ges.Base` with `Apply` / `Raise` / `Flush`     (aggregate base in snapshot.go)
* `mem.Store` with `Append` / `Load` / `SaveSnapshot` / `LoadSnapshot`
                                                  (stores/mem)
* `pgx.EventStore.Append`                         (stores/pgx/pgx_store.go)

Go maps are embedded as functions with an "absent" default (`Option` /
empty list), Go slices as lists, `int64` as `Int` (stream versions are
bounded by the slice length, so 64-bit overflow is unreachable), and a
method that can fail returns its receiver/state next to an
`Except`/`Option` error so that the "state unchanged on failure"
behaviour of the Go code is provable rather than assumed.  Event
payloads (`ges.Event = any`), metadata values, snapshot states, contexts
and encoded bytes are type parameters `Ev`, `MVal`, `StV`, `Ctx`, `Bts`.
Wall-clock timestamps (`at` fields) are not modelled.
-/

namespace ges

/-- `Metadata` (metadata.go): `map[string]any`, embedded as a lookup
function; `none` plays the role of both "key absent" and the nil map. -/
def Metadata (MVal : Type) : Type := String → Option MVal

/-- `Metadata.Merge` (metadata.go): builds a fresh map containing the
receiver's entries, then writes every entry of each argument map in
order, so later maps take precedence.  The Go nil-receiver check is a
no-op here because the nil map and the empty map have the same lookups. -/
def Metadata.Merge {MVal : Type} (m : Metadata MVal) (ms : List (Metadata MVal)) : Metadata MVal :=
  ms.foldl (fun out other => fun k => match other k with
    | some v => some v
    | none => out k) m

/-- `MetadataExtractor` (metadata.go): builds `Metadata` from a context. -/
def MetadataExtractor (Ctx MVal : Type) : Type := Ctx → Metadata MVal

/-- `VersionConflictError` (snapshot.go): structured version-mismatch data. -/
structure VersionConflictError where
  StreamID : String
  ExpectedVersion : Int
  ActualVersion : Int
deriving DecidableEq

/-- The Go `error` values the embedded operations can produce.
`sentinelVersionConflict` is the package-level `ErrVersionConflict`
value created by `fmt.Errorf`; `versionConflict` is a
`*VersionConflictError`; `missingCodec` is the pgx backend's
`fmt.Errorf("ges-pgx: no codec registered for event type %q", ...)`. -/
inductive GoError where
  | versionConflict (e : VersionConflictError)
  | sentinelVersionConflict
  | missingCodec (eventType : String)
deriving DecidableEq

/-- `ErrVersionConflict` (snapshot.go): the package-level sentinel error. -/
def ErrVersionConflict : GoError := GoError.sentinelVersionConflict

/-- `(*VersionConflictError).Is` (snapshot.go): matches exactly the
`ErrVersionConflict` sentinel (Go compares error identity with `==`). -/
def VersionConflictError.goIs (_e : VersionConflictError) (target : GoError) : Bool :=
  target == ErrVersionConflict

/-- `errors.Is(err, target)` restricted to the error values above: Go
first compares `err == target`, then consults the `Is` method.  None of
the embedded errors wrap another error, so no unwrapping step is needed. -/
def errorsIs (err target : GoError) : Bool :=
  err == target ||
    match err with
    | GoError.versionConflict e => e.goIs target
    | _ => false

/-- `Snapshot` (snapshot.go): `State` is Go's `any`, nil (`none`) when
the snapshot was not found; the `At` timestamp is not modelled. -/
structure Snapshot (StV : Type) where
  State : Option StV
  Version : Int
  Found : Bool
deriving DecidableEq

/-- `Base` (snapshot.go): the embeddable aggregate helper.  The Go
`applier func(Event)` mutates aggregate state it closes over; that
closed-over state is made explicit as the `state` field, and the
applier becomes a function from an event and a state to a state
(`none` models a nil applier). -/
structure Base (StV Ev : Type) where
  id : String
  version : Int
  pending : List Ev
  state : StV
  applier : Option (Ev → StV → StV)

/-- `Base.Apply` (snapshot.go): run the applier when non-nil, then
advance the version by exactly 1. -/
def Base.Apply {StV Ev : Type} (b : Base StV Ev) (e : Ev) : Base StV Ev :=
  let b' := match b.applier with
    | some f => { b with state := f e b.state }
    | none => b
  { b' with version := b'.version + 1 }

/-- `Base.Raise` (snapshot.go): `Apply(e)` plus enqueue `e` to pending. -/
def Base.Raise {StV Ev : Type} (b : Base StV Ev) (e : Ev) : Base StV Ev :=
  let b' := b.Apply e
  { b' with pending := b'.pending ++ [e] }

/-- `Base.Flush` (snapshot.go): returns the pending buffer and
`expectedVersion = version - len(pending)`, and clears pending. -/
def Base.Flush {StV Ev : Type} (b : Base StV Ev) : (List Ev × Int) × Base StV Ev :=
  ((b.pending, b.version - b.pending.length), { b with pending := [] })

/-- `Base.Version` (snapshot.go): current version including pending. -/
def Base.Version {StV Ev : Type} (b : Base StV Ev) : Int := b.version

end ges

namespace mem

open ges

/-- `storedEvent` (stores/mem): the in-memory persisted envelope
(`at` timestamp not modelled). -/
structure storedEvent (Ev MVal : Type) where
  version : Int
  payload : Ev
  metadata : Metadata MVal
  typ : String

/-- mem `snapshot` record (stores/mem): version plus opaque state. -/
structure snapshot (StV : Type) where
  version : Int
  state : StV

/-- `Store` (stores/mem): per-stream event lists and snapshots, plus the
optional metadata extractor.  Go map lookups of absent keys yield the
zero value, so `streams` defaults to `[]` and `snapshots` to `none`. -/
structure Store (Ev MVal StV Ctx : Type) where
  streams : String → List (storedEvent Ev MVal)
  snapshots : String → Option (snapshot StV)
  extractor : Option (MetadataExtractor Ctx MVal)

/-- `New` (stores/mem): empty maps; the only option is the extractor. -/
def Store.New {Ev MVal StV Ctx : Type} (ex : Option (MetadataExtractor Ctx MVal)) :
    Store Ev MVal StV Ctx :=
  ⟨fun _ => [], fun _ => none, ex⟩

/-- The stream's current version as `Append` computes it:
`int64(len(seq))`. -/
def Store.currentVersion {Ev MVal StV Ctx : Type} (s : Store Ev MVal StV Ctx)
    (streamID : String) : Int :=
  ((s.streams streamID).length : Int)

/-- The `for _, e := range events` loop inside mem `Append`: bump
`currentVersion` and append the stored envelope, per event. -/
def appendLoop {Ev MVal : Type} (etype : Ev → String) (seq : List (storedEvent Ev MVal))
    (currentVersion : Int) (md : Metadata MVal) :
    List Ev → List (storedEvent Ev MVal) × Int
  | [] => (seq, currentVersion)
  | e :: rest =>
      appendLoop etype (seq ++ [⟨currentVersion + 1, e, md, etype e⟩]) (currentVersion + 1) md rest

/-- mem `Append` (stores/mem): optimistic-concurrency append.  `etype`
stands for the package function `ges.EventType`.  The updated store is
returned next to the Go `(int64, error)` result; the error branches
return the receiver unchanged, exactly as the Go method leaves
`s.streams` untouched before returning. -/
def Store.Append {Ev MVal StV Ctx : Type} (etype : Ev → String) (s : Store Ev MVal StV Ctx)
    (ctx : Ctx) (streamID : String) (expectedVersion : Int) (events : List Ev)
    (md : Metadata MVal) : Store Ev MVal StV Ctx × Except GoError Int :=
  let md' := match s.extractor with
    | some ex => (ex ctx).Merge [md]
    | none => md
  let seq := s.streams streamID
  let currentVersion : Int := (seq.length : Int)
  if currentVersion ≠ expectedVersion then
    (s, Except.error (GoError.versionConflict ⟨streamID, expectedVersion, currentVersion⟩))
  else if events.length = 0 then
    -- Nothing to append; treat as a successful check.
    (s, Except.ok expectedVersion)
  else
    let r := appendLoop etype seq currentVersion md' events
    ({ s with streams := fun id => if id = streamID then r.1 else s.streams id },
      Except.ok r.2)

/-- mem `Load` (stores/mem): events strictly after `fromVersion` in
storage order (the Go index loop from the clamped `start` to the end is
the suffix `seq.drop start`), plus the version of the last stored
event.  The Go method never returns a non-nil error. -/
def Store.Load {Ev MVal StV Ctx : Type} (s : Store Ev MVal StV Ctx) (streamID : String)
    (fromVersion : Int) : List Ev × Int × Option GoError :=
  let seq := s.streams streamID
  if seq.length = 0 then
    ([], 0, none)
  else
    -- fromVersion is exclusive; indexes are zero-based (version = index+1)
    let start : Int :=
      if fromVersion < 0 then 0
      else if fromVersion > (seq.length : Int) then (seq.length : Int)
      else fromVersion
    let out := (seq.drop start.toNat).map (fun r => r.payload)
    let last : Int :=
      if seq.length > 0 then ((seq.getLast?.map (fun r => r.version)).getD 0) else 0
    (out, last, none)

/-- mem `SaveSnapshot` (stores/mem): upsert; the Go method always
returns a nil error. -/
def Store.SaveSnapshot {Ev MVal StV Ctx : Type} (s : Store Ev MVal StV Ctx)
    (streamID : String) (version : Int) (state : StV) : Store Ev MVal StV Ctx :=
  { s with snapshots := fun id => if id = streamID then some ⟨version, state⟩ else s.snapshots id }

/-- mem `LoadSnapshot` (stores/mem): absent ⇒ `Snapshot{Found:false}`
(zero state and version) with a nil error. -/
def Store.LoadSnapshot {Ev MVal StV Ctx : Type} (s : Store Ev MVal StV Ctx)
    (streamID : String) : Snapshot StV × Option GoError :=
  match s.snapshots streamID with
  | none => (⟨none, 0, false⟩, none)
  | some snap => (⟨some snap.state, snap.version, true⟩, none)

/-- One public call against the in-memory store, for reasoning about
reachable store states. -/
inductive Op (Ev MVal StV Ctx : Type) where
  | append (ctx : Ctx) (streamID : String) (expectedVersion : Int)
      (events : List Ev) (md : Metadata MVal)
  | load (streamID : String) (fromVersion : Int)
  | saveSnapshot (streamID : String) (version : Int) (state : StV)
  | loadSnapshot (streamID : String)

/-- The store state after one call.  `Load` and `LoadSnapshot` take only
the read lock and return no modified state, so they leave the store as
it was; a failed `Append` likewise returns the unchanged store. -/
def Store.step {Ev MVal StV Ctx : Type} (etype : Ev → String) (s : Store Ev MVal StV Ctx) :
    Op Ev MVal StV Ctx → Store Ev MVal StV Ctx
  | Op.append ctx id v evs md => (Store.Append etype s ctx id v evs md).1
  | Op.load _ _ => s
  | Op.saveSnapshot id v st => Store.SaveSnapshot s id v st
  | Op.loadSnapshot _ => s

/-- The store state after a sequence of calls. -/
def Store.run {Ev MVal StV Ctx : Type} (etype : Ev → String) (s : Store Ev MVal StV Ctx)
    (ops : List (Op Ev MVal StV Ctx)) : Store Ev MVal StV Ctx :=
  ops.foldl (Store.step etype) s

end mem

namespace pgx

open ges

/-- `EventCodec` (codec.go): the encode/decode pair for one event type.
The spec treats `encode(value) -> bytes` as total and only `decode` as
fallible ("decode fails with a decode error on malformed bytes"). -/
structure EventCodec (Ev Bts : Type) where
  encode : Ev → Bts
  decode : Bts → Except GoError Ev

/-- A row of the pgx `events` table: the persisted envelope for one
stream (`stream_id` is the key into `PgxDB.events`; `event_id` and `at`
are database-generated and not modelled). -/
structure PgRow (Bts : Type) where
  version : Int
  event_type : String
  payload : Bts
  metadata : Bts

/-- The state of the `events` table, grouped by `stream_id` in
insertion order. -/
structure PgxDB (Bts : Type) where
  events : String → List (PgRow Bts)

/-- `EventStore` (stores/pgx): codec registry plus optional extractor
(the connection pool is the external database, passed separately as
`PgxDB`). -/
structure EventStore (Ev MVal Bts Ctx : Type) where
  typeRegistry : String → Option (EventCodec Ev Bts)
  extractor : Option (MetadataExtractor Ctx MVal)

/-- `SELECT COALESCE(MAX(version), 0) FROM events WHERE stream_id = $1`. -/
def pgMaxVersion {Bts : Type} (rows : List (PgRow Bts)) : Int :=
  rows.foldl (fun acc r => max acc r.version) 0

/-- The `for _, e := range events` loop inside pgx `Append`: resolve the
codec (missing ⇒ `missingCodec` error), encode, bump `currentVersion`,
and insert; a duplicate `(streamID, version)` key (the table's primary
key) surfaces as a version conflict with the incremented version as
`ActualVersion`, exactly as `isUniqueViolation` is reclassified. -/
def pgxInsertLoop {Ev Bts : Type} (etype : Ev → String)
    (reg : String → Option (EventCodec Ev Bts)) (streamID : String)
    (expectedVersion : Int) (mdBytes : Bts) (rows : List (PgRow Bts))
    (currentVersion : Int) : List Ev → Except GoError (List (PgRow Bts) × Int)
  | [] => Except.ok (rows, currentVersion)
  | e :: rest =>
      let eventType := etype e
      match reg eventType with
      | none => Except.error (GoError.missingCodec eventType)
      | some codec =>
          let payload := codec.encode e
          let cv := currentVersion + 1
          if rows.any (fun r => r.version = cv) then
            Except.error (GoError.versionConflict ⟨streamID, expectedVersion, cv⟩)
          else
            pgxInsertLoop etype reg streamID expectedVersion mdBytes
              (rows ++ [⟨cv, eventType, payload, mdBytes⟩]) cv rest

/-- pgx `Append` (stores/pgx): read the current version inside the
transaction, compare, insert each event, commit.  `marshalMd` stands
for `json.Marshal` of the metadata (an external collaborator, total per
the spec's codec contract).  Every error path rolls the transaction
back, so the database is returned unchanged there. -/
def EventStore.Append {Ev MVal Bts Ctx : Type} (etype : Ev → String)
    (marshalMd : Metadata MVal → Bts) (s : EventStore Ev MVal Bts Ctx) (db : PgxDB Bts)
    (ctx : Ctx) (streamID : String) (expectedVersion : Int) (events : List Ev)
    (md : Metadata MVal) : PgxDB Bts × Except GoError Int :=
  let md' := match s.extractor with
    | some ex => (ex ctx).Merge [md]
    | none => md
  let rows := db.events streamID
  let currentVersion := pgMaxVersion rows
  if currentVersion ≠ expectedVersion then
    (db, Except.error (GoError.versionConflict ⟨streamID, expectedVersion, currentVersion⟩))
  else if events.length = 0 then
    (db, Except.ok expectedVersion)
  else
    match pgxInsertLoop etype s.typeRegistry streamID expectedVersion (marshalMd md')
        rows currentVersion events with
    | Except.error e => (db, Except.error e)
    | Except.ok (rows', newVersion) =>
        ({ events := fun id => if id = streamID then rows' else db.events id },
          Except.ok newVersion)

end pgx

/-!  Derived definitions used to state and prove the properties. -/

/-- The integer interval `[a, a+n)` as a list: the shape of a gapless
ascending version sequence. -/
def intRange (a : Int) : Nat → List Int
  | 0 => []
  | n + 1 => a :: intRange (a + 1) n

namespace mem

open ges

/-- The envelopes the mem `Append` loop builds for a batch, starting
after `currentVersion` (a recursive restatement of `appendLoop`'s
effect, proved equivalent below). -/
def mkRows {Ev MVal : Type} (etype : Ev → String) (currentVersion : Int) (md : Metadata MVal) :
    List Ev → List (storedEvent Ev MVal)
  | [] => []
  | e :: rest => ⟨currentVersion + 1, e, md, etype e⟩ :: mkRows etype (currentVersion + 1) md rest

/-- The stream invariant: stored versions are exactly `1, 2, ..., n` in
storage order. -/
def versionsOk {Ev MVal : Type} (seq : List (storedEvent Ev MVal)) : Prop :=
  seq.map (fun r => r.version) = intRange 1 seq.length

/-- The metadata mem `Append` actually attaches: extracted metadata (if
an extractor is configured) merged with the explicit metadata, explicit
keys winning. -/
def effectiveMd {Ev MVal StV Ctx : Type} (s : Store Ev MVal StV Ctx) (ctx : Ctx)
    (md : Metadata MVal) : Metadata MVal :=
  match s.extractor with
  | some ex => (ex ctx).Merge [md]
  | none => md

end mem

/-! Concrete fixtures for the closed witness statements. -/

/-- The canonical type name function for `Nat` payloads in examples. -/
def natType : Nat → String := fun _ => "Nat"

/-- Empty explicit metadata. -/
def mdEmpty : ges.Metadata String := fun _ => none

/-- Extracted metadata of the spec's merge scenario: `{tenant:"t1", user:"u1"}`. -/
def tenantMeta : ges.Metadata String :=
  fun k => if k = "tenant" then some "t1" else if k = "user" then some "u1" else none

/-- Explicit metadata of the spec's merge scenario: `{user:"u2"}`. -/
def userMeta : ges.Metadata String :=
  fun k => if k = "user" then some "u2" else none

/-- The merge scenario's expected result: `{tenant:"t1", user:"u2"}`. -/
def mergedMetaExpected : ges.Metadata String :=
  fun k => if k = "tenant" then some "t1" else if k = "user" then some "u2" else none

/-- A fresh in-memory store over `Nat` payloads, no extractor. -/
def memNew : mem.Store Nat String Nat Unit := mem.Store.New none

/-- An in-memory store whose extractor always yields `tenantMeta`. -/
def memWithExtractor : mem.Store Nat String Nat Unit :=
  mem.Store.New (some (fun _ => tenantMeta))

/-- A trivial codec over `Nat` payloads and `Unit` bytes. -/
def unitCodec : pgx.EventCodec Nat Unit := ⟨fun _ => (), fun _ => Except.ok 0⟩

/-- A registry with a codec for every type name. -/
def regAll : String → Option (pgx.EventCodec Nat Unit) := fun _ => some unitCodec

/-- An empty registry. -/
def regNone : String → Option (pgx.EventCodec Nat Unit) := fun _ => none

/-- A pgx store with a fully populated registry and no extractor. -/
def pgxStoreAll : pgx.EventStore Nat String Unit Unit := ⟨regAll, none⟩

/-- A pgx store with an empty registry and no extractor. -/
def pgxStoreNone : pgx.EventStore Nat String Unit Unit := ⟨regNone, none⟩

/-- An empty events table. -/
def pgDB0 : pgx.PgxDB Unit := ⟨fun _ => []⟩

/-- An events table whose stream `"s"` holds one event at version 1. -/
def pgDB1 : pgx.PgxDB Unit :=
  ⟨fun id => if id = "s" then [⟨1, "Nat", (), ()⟩] else []⟩

/-- `json.Marshal` of metadata for `Unit` bytes. -/
def marshalUnit : ges.Metadata String → Unit := fun _ => ()

/-- A concrete aggregate `Base` used in witnesses: two pending events on
top of version 5, with an adding applier. -/
def baseExample : ges.Base Nat Nat :=
  ⟨"Account:1", 5, [8, 9], 0, some (fun e st => st + e)⟩

/-!  Helper lemmas about `intRange`. -/

theorem intRange_length (n : Nat) (a : Int) : (intRange a n).length = n := by
  induction n generalizing a with
  | zero => rfl
  | succ n ih => simp [intRange, ih]

theorem intRange_append (n : Nat) (m : Nat) (a : Int) :
    intRange a (n + m) = intRange a n ++ intRange (a + n) m := by
  induction n generalizing a with
  | zero => simp [intRange]
  | succ n ih =>
      have hn : n + 1 + m = (n + m) + 1 := by omega
      rw [hn]
      show a :: intRange (a + 1) (n + m) = (a :: intRange (a + 1) n) ++ intRange (a + ↑(n + 1)) m
      rw [List.cons_append, ih]
      have : a + 1 + (n : Int) = a + ((n : Nat) + 1 : Nat) := by push_cast; ring
      rw [this]

theorem intRange_getLast? (n : Nat) (a : Int) :
    (intRange a (n + 1)).getLast? = some (a + n) := by
  induction n generalizing a with
  | zero => simp [intRange]
  | succ n ih =>
      show (a :: intRange (a + 1) (n + 1)).getLast? = _
      rw [show intRange (a + 1) (n + 1) = (a + 1) :: intRange (a + 1 + 1) n from rfl,
        List.getLast?_cons_cons,
        ← show intRange (a + 1) (n + 1) = (a + 1) :: intRange (a + 1 + 1) n from rfl, ih]
      congr 1
      push_cast
      ring

theorem intRange_bounds (n : Nat) (a : Int) :
    ∀ x ∈ intRange a n, a ≤ x ∧ x < a + n := by
  induction n generalizing a with
  | zero => simp [intRange]
  | succ n ih =>
      intro x hx
      rcases List.mem_cons.mp hx with h | h
      · subst h
        constructor
        · exact le_refl x
        · have : (0 : Int) < (n : Int) + 1 := by positivity
          push_cast
          omega
      · have := ih (a + 1) x h
        push_cast
        push_cast at this
        omega

theorem intRange_mem_top (n : Nat) (a : Int) : (a + n) ∈ intRange a (n + 1) := by
  induction n generalizing a with
  | zero => simp [intRange]
  | succ n ih =>
      have h := ih (a + 1)
      have : a + ((n : Nat) + 1 : Nat) = (a + 1) + n := by push_cast; ring
      rw [this]
      exact List.mem_cons_of_mem a h

/-!  Helper lemmas about the mem store. -/

namespace mem

theorem appendLoop_eq {Ev MVal : Type} (etype : Ev → String) (evs : List Ev)
    (seq : List (storedEvent Ev MVal)) (cv : Int) (md : ges.Metadata MVal) :
    appendLoop etype seq cv md evs = (seq ++ mkRows etype cv md evs, cv + evs.length) := by
  induction evs generalizing seq cv with
  | nil => simp [appendLoop, mkRows]
  | cons e rest ih =>
      show appendLoop etype (seq ++ [⟨cv + 1, e, md, etype e⟩]) (cv + 1) md rest = _
      rw [ih, Prod.mk.injEq]
      refine ⟨?_, ?_⟩
      · simp [mkRows]
      · simp only [List.length_cons]
        push_cast
        ring

theorem mkRows_map_version {Ev MVal : Type} (etype : Ev → String) (evs : List Ev)
    (cv : Int) (md : ges.Metadata MVal) :
    (mkRows etype cv md evs).map (fun r => r.version) = intRange (cv + 1) evs.length := by
  induction evs generalizing cv with
  | nil => rfl
  | cons e rest ih =>
      show (cv + 1) :: (mkRows etype (cv + 1) md rest).map (fun r => r.version) = _
      rw [ih]
      rfl

theorem mkRows_map_payload {Ev MVal : Type} (etype : Ev → String) (evs : List Ev)
    (cv : Int) (md : ges.Metadata MVal) :
    (mkRows etype cv md evs).map (fun r => r.payload) = evs := by
  induction evs generalizing cv with
  | nil => rfl
  | cons e rest ih =>
      show e :: (mkRows etype (cv + 1) md rest).map (fun r => r.payload) = e :: rest
      rw [ih]

theorem mkRows_length {Ev MVal : Type} (etype : Ev → String) (evs : List Ev)
    (cv : Int) (md : ges.Metadata MVal) :
    (mkRows etype cv md evs).length = evs.length := by
  have := congrArg List.length (mkRows_map_payload etype evs cv md)
  simpa using this

theorem mkRows_metadata {Ev MVal : Type} (etype : Ev → String) (evs : List Ev)
    (cv : Int) (md : ges.Metadata MVal) :
    ∀ r ∈ mkRows etype cv md evs, r.metadata = md := by
  induction evs generalizing cv with
  | nil => simp [mkRows]
  | cons e rest ih =>
      intro r hr
      rcases List.mem_cons.mp hr with h | h
      · subst h; rfl
      · exact ih (cv + 1) r h

theorem Append_ok_spec {Ev MVal StV Ctx : Type} (etype : Ev → String)
    (s : Store Ev MVal StV Ctx) (ctx : Ctx) (id : String) (evs : List Ev)
    (md : ges.Metadata MVal) (v : Int) (hv : v = Store.currentVersion s id) :
    (Store.Append etype s ctx id v evs md).2 = Except.ok (v + evs.length) ∧
    ((Store.Append etype s ctx id v evs md).1).streams id
      = s.streams id ++ mkRows etype v (effectiveMd s ctx md) evs ∧
    (∀ id', id' ≠ id → ((Store.Append etype s ctx id v evs md).1).streams id' = s.streams id') ∧
    ((Store.Append etype s ctx id v evs md).1).snapshots = s.snapshots ∧
    ((Store.Append etype s ctx id v evs md).1).extractor = s.extractor := by
  subst hv
  by_cases h0 : evs.length = 0
  · rcases List.length_eq_zero.mp h0 with rfl
    refine ⟨?_, ?_, ?_, ?_, ?_⟩ <;>
      simp [Store.Append, Store.currentVersion, mkRows, effectiveMd]
  · refine ⟨?_, ?_, ?_, ?_, ?_⟩ <;>
      simp [Store.Append, Store.currentVersion, h0, appendLoop_eq, effectiveMd]
    intro id' hne
    simp [hne]

theorem Append_conflict {Ev MVal StV Ctx : Type} (etype : Ev → String)
    (s : Store Ev MVal StV Ctx) (ctx : Ctx) (id : String) (evs : List Ev)
    (md : ges.Metadata MVal) (v : Int) (hv : v ≠ Store.currentVersion s id) :
    Store.Append etype s ctx id v evs md
      = (s, Except.error (ges.GoError.versionConflict ⟨id, v, Store.currentVersion s id⟩)) := by
  have hc : ((s.streams id).length : Int) ≠ v := by
    simpa [Store.currentVersion, eq_comm] using hv
  simp [Store.Append, Store.currentVersion, hc]

theorem versionsOk_append {Ev MVal : Type} (etype : Ev → String)
    (seq : List (storedEvent Ev MVal)) (md : ges.Metadata MVal) (evs : List Ev)
    (h : versionsOk seq) :
    versionsOk (seq ++ mkRows etype ((seq.length : Nat) : Int) md evs) := by
  unfold versionsOk at h ⊢
  rw [List.map_append, h, mkRows_map_version, List.length_append, mkRows_length,
    intRange_append seq.length evs.length 1]
  congr 2
  ring

theorem step_versionsOk {Ev MVal StV Ctx : Type} (etype : Ev → String)
    (s : Store Ev MVal StV Ctx) (op : Op Ev MVal StV Ctx)
    (h : ∀ id, versionsOk (s.streams id)) :
    ∀ id, versionsOk ((Store.step etype s op).streams id) := by
  cases op with
  | append ctx sid v evs md =>
      intro id
      show versionsOk (((Store.Append etype s ctx sid v evs md).1).streams id)
      by_cases hv : v = Store.currentVersion s sid
      · have hspec := Append_ok_spec etype s ctx sid evs md v hv
        by_cases hid : id = sid
        · subst hid
          rw [hspec.2.1, hv]
          exact versionsOk_append etype (s.streams id) (effectiveMd s ctx md) evs (h id)
        · rw [hspec.2.2.1 id hid]
          exact h id
      · rw [Append_conflict etype s ctx sid evs md v hv]
        exact h id
  | load sid fv => exact h
  | saveSnapshot sid v st => exact h
  | loadSnapshot sid => exact h

theorem run_versionsOk {Ev MVal StV Ctx : Type} (etype : Ev → String)
    (ops : List (Op Ev MVal StV Ctx)) :
    ∀ s : Store Ev MVal StV Ctx, (∀ id, versionsOk (s.streams id)) →
      ∀ id, versionsOk ((Store.run etype s ops).streams id) := by
  induction ops with
  | nil => intro s h id; exact h id
  | cons op rest ih =>
      intro s h id
      exact ih (Store.step etype s op) (step_versionsOk etype s op h) id

theorem run_New_versionsOk {Ev MVal StV Ctx : Type} (etype : Ev → String)
    (ex : Option (ges.MetadataExtractor Ctx MVal)) (ops : List (Op Ev MVal StV Ctx))
    (id : String) :
    versionsOk ((Store.run etype (Store.New ex) ops).streams id) :=
  run_versionsOk etype ops (Store.New ex) (fun _ => rfl) id

theorem versionsOk_getLast {Ev MVal : Type} (seq : List (storedEvent Ev MVal))
    (h : versionsOk seq) (hne : seq ≠ []) :
    seq.getLast?.map (fun r => r.version) = some ((seq.length : Nat) : Int) := by
  obtain ⟨m, hm⟩ : ∃ m, seq.length = m + 1 := by
    cases seq with
    | nil => exact absurd rfl hne
    | cons r rest => exact ⟨rest.length, rfl⟩
  rw [← List.getLast?_map (fun r => r.version) seq, h, hm, intRange_getLast?]
  congr 1
  push_cast
  ring

theorem filter_eq_drop {Ev MVal : Type} (seq : List (storedEvent Ev MVal)) :
    ∀ a fv : Int, seq.map (fun r => r.version) = intRange a seq.length →
      seq.filter (fun r => fv < r.version) = seq.drop (fv - a + 1).toNat := by
  induction seq with
  | nil => intro a fv _; simp
  | cons r rest ih =>
      intro a fv h
      simp only [List.map_cons, List.length_cons, intRange] at h
      injection h with h1 h2
      by_cases hfv : fv < r.version
      · rw [List.filter_cons_of_pos (by simpa using hfv)]
        have hk : (fv - a + 1).toNat = 0 := by omega
        rw [hk, List.drop_zero]
        have hrest := ih (a + 1) fv h2
        have hk2 : (fv - (a + 1) + 1).toNat = 0 := by omega
        rw [hk2, List.drop_zero] at hrest
        rw [hrest]
      · rw [List.filter_cons_of_neg (by simpa using hfv)]
        have hge : a ≤ fv := by omega
        have hk : (fv - a + 1).toNat = (fv - (a + 1) + 1).toNat + 1 := by omega
        rw [hk, List.drop_succ_cons]
        exact ih (a + 1) fv h2

end mem

/-!  Helper lemmas about the pgx store. -/

namespace pgx

open ges

theorem le_pgFold {Bts : Type} (rows : List (PgRow Bts)) :
    ∀ acc : Int, acc ≤ rows.foldl (fun a r => max a r.version) acc := by
  induction rows with
  | nil => intro acc; exact le_refl acc
  | cons r rest ih =>
      intro acc
      exact le_trans (le_max_left acc r.version) (ih (max acc r.version))

theorem mem_le_pgFold {Bts : Type} (rows : List (PgRow Bts)) :
    ∀ acc : Int, ∀ r ∈ rows, r.version ≤ rows.foldl (fun a x => max a x.version) acc := by
  induction rows with
  | nil => intro acc r hr; simp at hr
  | cons x rest ih =>
      intro acc r hr
      rcases List.mem_cons.mp hr with h | h
      · subst h
        exact le_trans (le_max_right acc r.version) (le_pgFold rest (max acc r.version))
      · exact ih (max acc x.version) r h

theorem pgFold_le {Bts : Type} (rows : List (PgRow Bts)) :
    ∀ acc m : Int, acc ≤ m → (∀ r ∈ rows, r.version ≤ m) →
      rows.foldl (fun a r => max a r.version) acc ≤ m := by
  induction rows with
  | nil => intro acc m h _; exact h
  | cons x rest ih =>
      intro acc m h hall
      exact ih (max acc x.version) m
        (max_le h (hall x (List.mem_cons_self x rest)))
        (fun r hr => hall r (List.mem_cons_of_mem x hr))

theorem pgMax_nonneg {Bts : Type} (rows : List (PgRow Bts)) : 0 ≤ pgMaxVersion rows :=
  le_pgFold rows 0

theorem mem_le_pgMax {Bts : Type} (rows : List (PgRow Bts)) :
    ∀ r ∈ rows, r.version ≤ pgMaxVersion rows :=
  mem_le_pgFold rows 0

theorem pgMax_eq {Bts : Type} (rows : List (PgRow Bts)) (m : Int) (hm : 0 ≤ m)
    (hall : ∀ r ∈ rows, r.version ≤ m) (hex : ∃ r ∈ rows, r.version = m) :
    pgMaxVersion rows = m := by
  refine le_antisymm (pgFold_le rows 0 m hm hall) ?_
  obtain ⟨r, hr, hv⟩ := hex
  calc m = r.version := hv.symm
    _ ≤ _ := mem_le_pgMax rows r hr

theorem pgxInsertLoop_ok {Ev Bts : Type} (etype : Ev → String)
    (reg : String → Option (EventCodec Ev Bts)) (sid : String) (ev0 : Int) (mdB : Bts)
    (evs : List Ev) :
    ∀ (rows : List (PgRow Bts)) (cv : Int),
      (∀ r ∈ rows, r.version ≤ cv) →
      (∀ e ∈ evs, (reg (etype e)).isSome) →
      ∃ rows', pgxInsertLoop etype reg sid ev0 mdB rows cv evs
          = Except.ok (rows', cv + evs.length) ∧
        rows'.map (fun r => r.version)
          = rows.map (fun r => r.version) ++ intRange (cv + 1) evs.length ∧
        (∀ r ∈ rows', r.version ≤ cv + evs.length) := by
  induction evs with
  | nil =>
      intro rows cv hbound _
      refine ⟨rows, ?_, ?_, ?_⟩
      · simp [pgxInsertLoop]
      · simp [intRange]
      · simpa using hbound
  | cons e rest ih =>
      intro rows cv hbound hreg
      obtain ⟨codec, hcc⟩ := Option.isSome_iff_exists.mp (hreg e (List.mem_cons_self e rest))
      have hany : rows.any (fun r => r.version = cv + 1) = false := by
        rw [List.any_eq_false]
        intro r hr
        have := hbound r hr
        simp only [decide_eq_true_eq]
        omega
      have hbound2 : ∀ r ∈ rows ++ [(⟨cv + 1, etype e, codec.encode e, mdB⟩ : PgRow Bts)],
          r.version ≤ cv + 1 := by
        intro r hr
        rcases List.mem_append.mp hr with h | h
        · have := hbound r h; omega
        · rcases List.mem_singleton.mp h with rfl; exact le_refl _
      have hreg2 : ∀ e' ∈ rest, (reg (etype e')).isSome :=
        fun e' he' => hreg e' (List.mem_cons_of_mem e he')
      obtain ⟨rows', hok, hmap, hb⟩ :=
        ih (rows ++ [⟨cv + 1, etype e, codec.encode e, mdB⟩]) (cv + 1) hbound2 hreg2
      refine ⟨rows', ?_, ?_, ?_⟩
      · show pgxInsertLoop etype reg sid ev0 mdB rows cv (e :: rest)
          = Except.ok (rows', cv + ((rest.length + 1 : Nat) : Int))
        rw [pgxInsertLoop, hcc]
        simp only [hany, Bool.false_eq_true, if_false]
        rw [hok]
        congr 2
        push_cast
        ring
      · rw [hmap]
        simp [List.map_append, List.append_assoc, intRange]
      · intro r hr
        have := hb r hr
        simp only [List.length_cons]
        push_cast
        push_cast at this
        omega

theorem pgxInsertLoop_missing {Ev Bts : Type} (etype : Ev → String)
    (reg : String → Option (EventCodec Ev Bts)) (sid : String) (ev0 : Int) (mdB : Bts)
    (evs : List Ev) :
    ∀ (rows : List (PgRow Bts)) (cv : Int),
      (∀ r ∈ rows, r.version ≤ cv) →
      (∃ e ∈ evs, reg (etype e) = none) →
      ∃ t, pgxInsertLoop etype reg sid ev0 mdB rows cv evs
          = Except.error (GoError.missingCodec t) := by
  induction evs with
  | nil => intro rows cv _ hex; simp at hex
  | cons e rest ih =>
      intro rows cv hbound hex
      by_cases hc : reg (etype e) = none
      · exact ⟨etype e, by rw [pgxInsertLoop, hc]⟩
      · obtain ⟨codec, hcc⟩ := Option.ne_none_iff_exists'.mp hc
        have hex' : ∃ e' ∈ rest, reg (etype e') = none := by
          obtain ⟨e', he', hn⟩ := hex
          rcases List.mem_cons.mp he' with h | h
          · subst h; exact absurd hn hc
          · exact ⟨e', h, hn⟩
        have hany : rows.any (fun r => r.version = cv + 1) = false := by
          rw [List.any_eq_false]
          intro r hr
          have := hbound r hr
          simp only [decide_eq_true_eq]
          omega
        have hbound2 : ∀ r ∈ rows ++ [(⟨cv + 1, etype e, codec.encode e, mdB⟩ : PgRow Bts)],
            r.version ≤ cv + 1 := by
          intro r hr
          rcases List.mem_append.mp hr with h | h
          · have := hbound r h; omega
          · rcases List.mem_singleton.mp h with rfl; exact le_refl _
        obtain ⟨t, ht⟩ :=
          ih (rows ++ [⟨cv + 1, etype e, codec.encode e, mdB⟩]) (cv + 1) hbound2 hex'
        refine ⟨t, ?_⟩
        rw [pgxInsertLoop, hcc]
        simp only [hany, Bool.false_eq_true, if_false]
        exact ht

theorem pgxInsertLoop_error_shape {Ev Bts : Type} (etype : Ev → String)
    (reg : String → Option (EventCodec Ev Bts)) (sid : String) (ev0 : Int) (mdB : Bts)
    (evs : List Ev) :
    ∀ (rows : List (PgRow Bts)) (cv : Int) (err : GoError),
      pgxInsertLoop etype reg sid ev0 mdB rows cv evs = Except.error err →
      (∃ t, err = GoError.missingCodec t) ∨ (∃ e, err = GoError.versionConflict e) := by
  induction evs with
  | nil => intro rows cv err h; simp [pgxInsertLoop] at h
  | cons e rest ih =>
      intro rows cv err h
      rw [pgxInsertLoop] at h
      cases hc : reg (etype e) with
      | none =>
          simp only [hc] at h
          injection h with h'
          exact Or.inl ⟨etype e, h'.symm⟩
      | some codec =>
          simp only [hc] at h
          by_cases hany : rows.any (fun r => r.version = cv + 1) = true
          · rw [if_pos hany] at h
            injection h with h'
            exact Or.inr ⟨_, h'.symm⟩
          · rw [if_neg hany] at h
            exact ih _ _ err h

theorem pgxAppend_conflict {Ev MVal Bts Ctx : Type} (etype : Ev → String)
    (marshalMd : Metadata MVal → Bts) (s : EventStore Ev MVal Bts Ctx) (db : PgxDB Bts)
    (ctx : Ctx) (id : String) (evs : List Ev) (md : Metadata MVal) (v : Int)
    (hv : v ≠ pgMaxVersion (db.events id)) :
    EventStore.Append etype marshalMd s db ctx id v evs md
      = (db, Except.error (GoError.versionConflict ⟨id, v, pgMaxVersion (db.events id)⟩)) := by
  have hc : pgMaxVersion (db.events id) ≠ v := fun h => hv h.symm
  simp [EventStore.Append, hc]

theorem pgxAppend_ok_spec {Ev MVal Bts Ctx : Type} (etype : Ev → String)
    (marshalMd : Metadata MVal → Bts) (s : EventStore Ev MVal Bts Ctx) (db : PgxDB Bts)
    (ctx : Ctx) (id : String) (evs : List Ev) (md : Metadata MVal) (v : Int)
    (hv : v = pgMaxVersion (db.events id))
    (hreg : ∀ e ∈ evs, (s.typeRegistry (etype e)).isSome) :
    (EventStore.Append etype marshalMd s db ctx id v evs md).2 = Except.ok (v + evs.length) ∧
    (((EventStore.Append etype marshalMd s db ctx id v evs md).1).events id).map
        (fun r => r.version)
      = (db.events id).map (fun r => r.version) ++ intRange (v + 1) evs.length ∧
    (∀ r ∈ ((EventStore.Append etype marshalMd s db ctx id v evs md).1).events id,
      r.version ≤ v + evs.length) ∧
    (∀ id', id' ≠ id →
      ((EventStore.Append etype marshalMd s db ctx id v evs md).1).events id'
        = db.events id') := by
  subst hv
  by_cases h0 : evs.length = 0
  · rcases List.length_eq_zero.mp h0 with rfl
    refine ⟨?_, ?_, ?_, ?_⟩
    · simp [EventStore.Append]
    · simp [EventStore.Append, intRange]
    · simpa [EventStore.Append] using mem_le_pgMax (db.events id)
    · intro id' _
      simp [EventStore.Append]
  · obtain ⟨rows', hok, hmap, hb⟩ :=
      pgxInsertLoop_ok etype s.typeRegistry id (pgMaxVersion (db.events id))
        (marshalMd (match s.extractor with
          | some ex => (ex ctx).Merge [md]
          | none => md))
        evs (db.events id) (pgMaxVersion (db.events id)) (mem_le_pgMax (db.events id)) hreg
    have happ : EventStore.Append etype marshalMd s db ctx id (pgMaxVersion (db.events id))
          evs md
        = (⟨fun i => if i = id then rows' else db.events i⟩,
            Except.ok (pgMaxVersion (db.events id) + evs.length)) := by
      simp only [EventStore.Append]
      rw [if_neg (by simp), if_neg h0, hok]
    refine ⟨?_, ?_, ?_, ?_⟩
    · rw [happ]
    · rw [happ]
      simpa using hmap
    · rw [happ]
      simpa using hb
    · intro id' hne
      rw [happ]
      simp [hne]

theorem pgxAppend_error_shape {Ev MVal Bts Ctx : Type} (etype : Ev → String)
    (marshalMd : Metadata MVal → Bts) (s : EventStore Ev MVal Bts Ctx) (db : PgxDB Bts)
    (ctx : Ctx) (id : String) (evs : List Ev) (md : Metadata MVal) (v : Int)
    (err : GoError)
    (h : (EventStore.Append etype marshalMd s db ctx id v evs md).2 = Except.error err) :
    (∃ e, err = GoError.versionConflict e) ∨ (∃ t, err = GoError.missingCodec t) := by
  by_cases hv : v = pgMaxVersion (db.events id)
  · subst hv
    by_cases h0 : evs.length = 0
    · simp [EventStore.Append, h0] at h
    · simp only [EventStore.Append, ne_eq, not_true_eq_false, if_false, h0] at h
      rcases hloop : pgxInsertLoop etype s.typeRegistry id (pgMaxVersion (db.events id))
          (marshalMd (match s.extractor with
            | some ex => (ex ctx).Merge [md]
            | none => md))
          (db.events id) (pgMaxVersion (db.events id)) evs with e' | p
      · rw [hloop] at h
        injection h with h'
        subst h'
        rcases pgxInsertLoop_error_shape etype s.typeRegistry id _ _ evs _ _ _ hloop with
          hres | hres
        · exact Or.inr hres
        · exact Or.inl hres
      · rw [hloop] at h
        simp at h
  · rw [pgxAppend_conflict etype marshalMd s db ctx id evs md v hv] at h
    injection h with h'
    exact Or.inl ⟨_, h'.symm⟩

end pgx

/-!  Helper lemmas about the aggregate `Base`. -/

theorem Base_Apply_pending {StV Ev : Type} (b : ges.Base StV Ev) (e : Ev) :
    (b.Apply e).pending = b.pending := by
  unfold ges.Base.Apply
  cases b.applier <;> rfl

theorem Base_Raise_pending {StV Ev : Type} (b : ges.Base StV Ev) (e : Ev) :
    (b.Raise e).pending = b.pending ++ [e] := by
  show (b.Apply e).pending ++ [e] = b.pending ++ [e]
  rw [Base_Apply_pending]

theorem Base_foldl_Raise_pending {StV Ev : Type} (evs : List Ev) :
    ∀ b0 : ges.Base StV Ev, (evs.foldl ges.Base.Raise b0).pending = b0.pending ++ evs := by
  induction evs with
  | nil => intro b0; simp
  | cons e rest ih =>
      intro b0
      show (rest.foldl ges.Base.Raise (b0.Raise e)).pending = b0.pending ++ (e :: rest)
      rw [ih (b0.Raise e), Base_Raise_pending]
      simp

/-!  The claims. -/

/-- Claim C4: for every aggregate `Base` state, `Flush` returns exactly
the pending events in the order they were raised, leaves the pending
buffer empty afterwards, returns `expectedVersion` equal to the version
at the time of the call minus the number of returned events, and does
not change the version. -/
theorem C4_base_flush {StV Ev : Type} (b b0 : ges.Base StV Ev) (evs : List Ev) :
    ges.Base.Flush b = ((b.pending, b.version - (ges.Base.Flush b).1.1.length),
      { b with pending := [] }) ∧
    ((ges.Base.Flush b).2).pending = [] ∧
    ((ges.Base.Flush b).2).version = b.version ∧
    ((ges.Base.Flush (evs.foldl ges.Base.Raise b0)).1).1 = b0.pending ++ evs := by
  refine ⟨rfl, rfl, rfl, ?_⟩
  show (evs.foldl ges.Base.Raise b0).pending = b0.pending ++ evs
  exact Base_foldl_Raise_pending evs b0

/-- Claim C2: in the in-memory store, for every state reachable from a
fresh store by any sequence of `Append`, `Load`, `SaveSnapshot` and
`LoadSnapshot` calls, every stream's stored events carry versions
forming the strictly increasing gapless sequence `1, 2, ..., n` in
storage order, and the current version used by `Append`'s comparison
equals the version of the stream's last stored event (0 when empty). -/
theorem C2_mem_version_invariant {Ev MVal StV Ctx : Type} (etype : Ev → String)
    (ex : Option (ges.MetadataExtractor Ctx MVal)) (ops : List (mem.Op Ev MVal StV Ctx))
    (id : String) :
    ((mem.Store.run etype (mem.Store.New ex) ops).streams id).map (fun r => r.version)
      = intRange 1 ((mem.Store.run etype (mem.Store.New ex) ops).streams id).length ∧
    mem.Store.currentVersion (mem.Store.run etype (mem.Store.New ex) ops) id
      = (((mem.Store.run etype (mem.Store.New ex) ops).streams id).getLast?.map
          (fun r => r.version)).getD 0 := by
  have h := mem.run_New_versionsOk etype ex ops id
  refine ⟨h, ?_⟩
  by_cases hne : (mem.Store.run etype (mem.Store.New ex) ops).streams id = []
  · rw [mem.Store.currentVersion, hne]
    rfl
  · rw [mem.versionsOk_getLast _ h hne]
    rfl

/-- Claim C9: in the in-memory store, for every reachable state, every
stream holding at least one stored event, and every `fromVersion` at or
past the stream's current version, `Load` returns an empty event list,
no error, and `lastVersion` equal to the stream's current version (the
version of its last stored event), which is non-zero. -/
theorem C9_load_past_end {Ev MVal StV Ctx : Type} (etype : Ev → String)
    (ex : Option (ges.MetadataExtractor Ctx MVal)) (ops : List (mem.Op Ev MVal StV Ctx))
    (id : String) (fv : Int)
    (hne : (mem.Store.run etype (mem.Store.New ex) ops).streams id ≠ [])
    (hfv : mem.Store.currentVersion (mem.Store.run etype (mem.Store.New ex) ops) id ≤ fv) :
    mem.Store.Load (mem.Store.run etype (mem.Store.New ex) ops) id fv
      = ([], mem.Store.currentVersion (mem.Store.run etype (mem.Store.New ex) ops) id,
          none) ∧
    ((mem.Store.run etype (mem.Store.New ex) ops).streams id).getLast?.map
        (fun r => r.version)
      = some (mem.Store.currentVersion (mem.Store.run etype (mem.Store.New ex) ops) id) ∧
    mem.Store.currentVersion (mem.Store.run etype (mem.Store.New ex) ops) id ≠ 0 := by
  have hinv := mem.run_New_versionsOk etype ex ops id
  have hlast := mem.versionsOk_getLast _ hinv hne
  have hlen : ((mem.Store.run etype (mem.Store.New ex) ops).streams id).length ≠ 0 := by
    simpa [List.length_eq_zero] using hne
  have hcur : mem.Store.currentVersion (mem.Store.run etype (mem.Store.New ex) ops) id
      = (((mem.Store.run etype (mem.Store.New ex) ops).streams id).length : Int) := rfl
  refine ⟨?_, by rw [hlast, hcur], by rw [hcur]; exact_mod_cast hlen⟩
  have hlenfv : (((mem.Store.run etype (mem.Store.New ex) ops).streams id).length : Int)
      ≤ fv := by
    rw [hcur] at hfv
    exact hfv
  have hstart : ¬(fv < 0) := by omega
  simp only [mem.Store.Load]
  rw [if_neg hlen, if_neg hstart]
  by_cases hgt : fv > (((mem.Store.run etype (mem.Store.New ex) ops).streams id).length : Int)
  · rw [if_pos hgt, List.drop_eq_nil_of_le (by omega), List.map_nil, if_pos (by omega),
      hlast, hcur]
    rfl
  · rw [if_neg hgt, List.drop_eq_nil_of_le (by omega), List.map_nil, if_pos (by omega),
      hlast, hcur]
    rfl

/-- Claim C3: for every reachable in-memory store state, a successful
`Append` with `expectedVersion` equal to the stream's true current
version followed immediately by `Load(streamID, 0)` returns exactly the
stream's events (the previously stored events then the appended batch)
in storage (ascending-version) order, with `lastVersion` equal to the
new current version; and in general `Load(streamID, fromVersion)`
returns exactly the payloads of the stored events with version strictly
greater than `fromVersion`, in storage order. -/
theorem C3_append_load_roundtrip {Ev MVal StV Ctx : Type} (etype : Ev → String)
    (ex : Option (ges.MetadataExtractor Ctx MVal)) (ops : List (mem.Op Ev MVal StV Ctx))
    (ctx : Ctx) (id : String) (evs : List Ev) (md : ges.Metadata MVal) (fv newV : Int) :
    ((mem.Store.Append etype (mem.Store.run etype (mem.Store.New ex) ops) ctx id
        (mem.Store.currentVersion (mem.Store.run etype (mem.Store.New ex) ops) id)
        evs md).2 = Except.ok newV →
      mem.Store.Load
          (mem.Store.Append etype (mem.Store.run etype (mem.Store.New ex) ops) ctx id
            (mem.Store.currentVersion (mem.Store.run etype (mem.Store.New ex) ops) id)
            evs md).1 id 0
        = (((mem.Store.run etype (mem.Store.New ex) ops).streams id).map
              (fun r => r.payload) ++ evs, newV, none)) ∧
    (mem.Store.Load (mem.Store.run etype (mem.Store.New ex) ops) id fv).1
      = (((mem.Store.run etype (mem.Store.New ex) ops).streams id).filter
          (fun r => fv < r.version)).map (fun r => r.payload) := by
  have hinv := mem.run_New_versionsOk etype ex ops id
  set s := mem.Store.run etype (mem.Store.New ex) ops with hs
  constructor
  · intro hok
    have hspec := mem.Append_ok_spec etype s ctx id evs md
      (mem.Store.currentVersion s id) rfl
    have hinj := hspec.1.symm.trans hok
    injection hinj with hnewV
    have hstr := hspec.2.1
    have hcur : mem.Store.currentVersion s id = ((s.streams id).length : Int) := rfl
    rw [hcur] at hnewV
    have hinv' : mem.versionsOk
        ((mem.Store.Append etype s ctx id (mem.Store.currentVersion s id) evs md).1.streams
          id) := by
      rw [hstr]
      exact mem.versionsOk_append etype (s.streams id) (mem.effectiveMd s ctx md) evs hinv
    have hlen' : ((mem.Store.Append etype s ctx id (mem.Store.currentVersion s id) evs
          md).1.streams id).length
        = (s.streams id).length + evs.length := by
      rw [hstr, List.length_append, mem.mkRows_length]
    by_cases hnil : ((mem.Store.Append etype s ctx id (mem.Store.currentVersion s id) evs
        md).1.streams id).length = 0
    · rw [hlen'] at hnil
      have hol : s.streams id = [] := List.length_eq_zero.mp (by omega)
      have hev : evs = [] := List.length_eq_zero.mp (by omega)
      subst hev
      simp only [mem.Store.Load]
      rw [if_pos (by rw [hlen', hol]; rfl), hol]
      simp only [List.map_nil, List.nil_append]
      have : newV = 0 := by
        rw [hol] at hnewV
        simpa using hnewV.symm
      rw [this]
    · simp only [mem.Store.Load]
      rw [if_neg hnil, if_neg (by omega : ¬((0 : Int) < 0)),
        if_neg (by omega :
          ¬((0 : Int) > (((mem.Store.Append etype s ctx id
            (mem.Store.currentVersion s id) evs md).1.streams id).length : Int)))]
      have hne' : (mem.Store.Append etype s ctx id (mem.Store.currentVersion s id) evs
          md).1.streams id ≠ [] := by
        intro h
        rw [h] at hnil
        exact hnil rfl
      rw [if_pos (Nat.pos_of_ne_zero hnil), mem.versionsOk_getLast _ hinv' hne']
      show ((((mem.Store.Append etype s ctx id (mem.Store.currentVersion s id) evs
            md).1.streams id).drop (0 : Int).toNat).map (fun r => r.payload),
          ((((mem.Store.Append etype s ctx id (mem.Store.currentVersion s id) evs
            md).1.streams id).length : Nat) : Int), none)
        = ((s.streams id).map (fun r => r.payload) ++ evs, newV, none)
      rw [show ((0 : Int).toNat = 0) from rfl, List.drop_zero, hstr, List.map_append,
        mem.mkRows_map_payload]
      simp only [Prod.mk.injEq, and_true, true_and]
      rw [List.length_append, mem.mkRows_length]
      omega
  · by_cases hlen0 : (s.streams id).length = 0
    · have hol := List.length_eq_zero.mp hlen0
      simp only [mem.Store.Load]
      rw [if_pos hlen0, hol]
      simp
    · have hfe := mem.filter_eq_drop (s.streams id) 1 fv hinv
      have hmm : fv - 1 + 1 = fv := by ring
      rw [hmm] at hfe
      simp only [mem.Store.Load]
      rw [if_neg hlen0, hfe]
      show ((s.streams id).drop
            (if fv < 0 then (0 : Int)
              else if fv > ((s.streams id).length : Int) then ((s.streams id).length : Int)
              else fv).toNat).map (fun r => r.payload)
        = ((s.streams id).drop fv.toNat).map (fun r => r.payload)
      by_cases h1 : fv < 0
      · rw [if_pos h1, show fv.toNat = 0 from by omega]
        rfl
      · rw [if_neg h1]
        by_cases h2 : fv > ((s.streams id).length : Int)
        · rw [if_pos h2, List.drop_eq_nil_of_le (by omega),
            List.drop_eq_nil_of_le (by omega)]
        · rw [if_neg h2]

/-- Witness for C3 at a concrete reachable store: one stored event,
appending one more, then loading from 0 and from `fromVersion = 0`. -/
theorem C3_witness :
    mem.Store.Load
        (mem.Store.Append natType
          (mem.Store.run natType (mem.Store.New none : mem.Store Nat String Nat Unit)
            [mem.Op.append () "a" 0 [5] mdEmpty])
          () "a"
          (mem.Store.currentVersion
            (mem.Store.run natType (mem.Store.New none : mem.Store Nat String Nat Unit)
              [mem.Op.append () "a" 0 [5] mdEmpty]) "a")
          [7] mdEmpty).1 "a" 0
      = ([5, 7], 2, none) ∧
    (mem.Store.Load
        (mem.Store.run natType (mem.Store.New none : mem.Store Nat String Nat Unit)
          [mem.Op.append () "a" 0 [5] mdEmpty]) "a" 0).1
      = [5] := by
  have h := @C3_append_load_roundtrip Nat String Nat Unit natType none
    [mem.Op.append () "a" 0 [5] mdEmpty] () "a" [7] mdEmpty 0 2
  exact ⟨(h.1 rfl).trans (by decide), h.2.trans (by decide)⟩

/-- Claim C1: for every stream and every pair of sequential `Append`
calls that both pass the same `expectedVersion`, equal to the stream's
version before the first call, each with a non-empty batch, exactly one
call succeeds (the first); the other fails with a version-conflict
error whose `ExpectedVersion` field is the now-stale expected version
and whose `ActualVersion` field is the stream's true current version,
and the failed call leaves the stored events unchanged (it returns the
store/database unmodified).  Proved for the in-memory backend
unconditionally and for the pgx backend when the first batch's event
types are registered. -/
theorem C1_same_expected_version_race {Ev MVal StV Ctx Bts : Type} (etype : Ev → String)
    (s : mem.Store Ev MVal StV Ctx) (ctx1 ctx2 : Ctx) (id : String) (evs1 evs2 : List Ev)
    (md1 md2 : ges.Metadata MVal)
    (marshalMd : ges.Metadata MVal → Bts) (ps : pgx.EventStore Ev MVal Bts Ctx)
    (db : pgx.PgxDB Bts)
    (h1 : evs1 ≠ []) (_h2 : evs2 ≠ [])
    (hreg : ∀ e ∈ evs1, (ps.typeRegistry (etype e)).isSome) :
    ((mem.Store.Append etype s ctx1 id (mem.Store.currentVersion s id) evs1 md1).2
        = Except.ok (mem.Store.currentVersion s id + evs1.length) ∧
      mem.Store.currentVersion
          (mem.Store.Append etype s ctx1 id (mem.Store.currentVersion s id) evs1 md1).1 id
        = mem.Store.currentVersion s id + evs1.length ∧
      mem.Store.Append etype
          (mem.Store.Append etype s ctx1 id (mem.Store.currentVersion s id) evs1 md1).1
          ctx2 id (mem.Store.currentVersion s id) evs2 md2
        = ((mem.Store.Append etype s ctx1 id (mem.Store.currentVersion s id) evs1 md1).1,
            Except.error (ges.GoError.versionConflict
              ⟨id, mem.Store.currentVersion s id,
                mem.Store.currentVersion s id + evs1.length⟩))) ∧
    ((pgx.EventStore.Append etype marshalMd ps db ctx1 id
        (pgx.pgMaxVersion (db.events id)) evs1 md1).2
        = Except.ok (pgx.pgMaxVersion (db.events id) + evs1.length) ∧
      pgx.pgMaxVersion
          ((pgx.EventStore.Append etype marshalMd ps db ctx1 id
            (pgx.pgMaxVersion (db.events id)) evs1 md1).1.events id)
        = pgx.pgMaxVersion (db.events id) + evs1.length ∧
      pgx.EventStore.Append etype marshalMd ps
          (pgx.EventStore.Append etype marshalMd ps db ctx1 id
            (pgx.pgMaxVersion (db.events id)) evs1 md1).1
          ctx2 id (pgx.pgMaxVersion (db.events id)) evs2 md2
        = ((pgx.EventStore.Append etype marshalMd ps db ctx1 id
            (pgx.pgMaxVersion (db.events id)) evs1 md1).1,
            Except.error (ges.GoError.versionConflict
              ⟨id, pgx.pgMaxVersion (db.events id),
                pgx.pgMaxVersion (db.events id) + evs1.length⟩))) := by
  have hn1 : evs1.length ≠ 0 := by simpa [List.length_eq_zero] using h1
  constructor
  · have hs := mem.Append_ok_spec etype s ctx1 id evs1 md1 (mem.Store.currentVersion s id)
      rfl
    have hcur2 : mem.Store.currentVersion
        (mem.Store.Append etype s ctx1 id (mem.Store.currentVersion s id) evs1 md1).1 id
        = mem.Store.currentVersion s id + evs1.length := by
      show ((((mem.Store.Append etype s ctx1 id (mem.Store.currentVersion s id) evs1
          md1).1.streams id).length : Nat) : Int) = _
      rw [hs.2.1, List.length_append, mem.mkRows_length]
      show (((s.streams id).length + evs1.length : Nat) : Int)
        = (((s.streams id).length : Nat) : Int) + evs1.length
      push_cast
      ring
    have hconf := mem.Append_conflict etype
      (mem.Store.Append etype s ctx1 id (mem.Store.currentVersion s id) evs1 md1).1
      ctx2 id evs2 md2 (mem.Store.currentVersion s id) (by rw [hcur2]; omega)
    refine ⟨hs.1, hcur2, ?_⟩
    rw [hconf, hcur2]
  · have hps := pgx.pgxAppend_ok_spec etype marshalMd ps db ctx1 id evs1 md1
      (pgx.pgMaxVersion (db.events id)) rfl hreg
    have h0 := pgx.pgMax_nonneg (db.events id)
    obtain ⟨m, hm⟩ : ∃ m, evs1.length = m + 1 := ⟨evs1.length - 1, by omega⟩
    have hmax2 : pgx.pgMaxVersion
        ((pgx.EventStore.Append etype marshalMd ps db ctx1 id
          (pgx.pgMaxVersion (db.events id)) evs1 md1).1.events id)
        = pgx.pgMaxVersion (db.events id) + evs1.length := by
      apply pgx.pgMax_eq
      · omega
      · exact hps.2.2.1
      · have hmem : (pgx.pgMaxVersion (db.events id) + (evs1.length : Int))
            ∈ ((pgx.EventStore.Append etype marshalMd ps db ctx1 id
              (pgx.pgMaxVersion (db.events id)) evs1 md1).1.events id).map
                (fun r => r.version) := by
          rw [hps.2.1]
          refine List.mem_append.mpr (Or.inr ?_)
          rw [hm]
          have htop := intRange_mem_top m (pgx.pgMaxVersion (db.events id) + 1)
          have heq : pgx.pgMaxVersion (db.events id) + ((m + 1 : Nat) : Int)
              = (pgx.pgMaxVersion (db.events id) + 1) + m := by push_cast; ring
          rw [heq]
          exact htop
        obtain ⟨r, hr, hv⟩ := List.mem_map.mp hmem
        exact ⟨r, hr, hv⟩
    have hconfp := pgx.pgxAppend_conflict etype marshalMd ps
      (pgx.EventStore.Append etype marshalMd ps db ctx1 id
        (pgx.pgMaxVersion (db.events id)) evs1 md1).1
      ctx2 id evs2 md2 (pgx.pgMaxVersion (db.events id)) (by rw [hmax2]; omega)
    refine ⟨hps.1, hmax2, ?_⟩
    rw [hconfp, hmax2]

/-- Witness for C1: both backends, one stored batch `[5]`, then a stale
re-append of `[6]` at expected version 0. -/
theorem C1_witness :
    mem.Store.Append natType
        (mem.Store.Append natType memNew () "a" 0 [5] mdEmpty).1 () "a" 0 [6] mdEmpty
      = ((mem.Store.Append natType memNew () "a" 0 [5] mdEmpty).1,
          Except.error (ges.GoError.versionConflict ⟨"a", 0, 1⟩)) ∧
    pgx.EventStore.Append natType marshalUnit pgxStoreAll
        (pgx.EventStore.Append natType marshalUnit pgxStoreAll pgDB0 () "a" 0 [5]
          mdEmpty).1 () "a" 0 [6] mdEmpty
      = ((pgx.EventStore.Append natType marshalUnit pgxStoreAll pgDB0 () "a" 0 [5]
          mdEmpty).1,
          Except.error (ges.GoError.versionConflict ⟨"a", 0, 1⟩)) := by
  have h := C1_same_expected_version_race natType memNew () () "a" [5] [6] mdEmpty mdEmpty
    marshalUnit pgxStoreAll pgDB0 (by decide) (by decide) (by decide)
  exact ⟨h.1.2.2, h.2.2.2⟩

/-- Witness for C9 at a concrete reachable store: one appended event,
`fromVersion = 7`. -/
theorem C9_witness :
    mem.Store.Load
        (mem.Store.run natType (mem.Store.New none : mem.Store Nat String Nat Unit)
          [mem.Op.append () "a" 0 [5] mdEmpty])
        "a" 7
      = ([], 1, none) :=
  (C9_load_past_end natType none [mem.Op.append () "a" 0 [5] mdEmpty] "a" 7
    (fun h => absurd (congrArg List.length h) (by decide))
    (by decide)).1

/-- Claim C5: appending an empty batch with `expectedVersion` equal to
the stream's current version succeeds and returns `expectedVersion`
unchanged, storing no event and leaving the store (all streams) exactly
as it was; with a mismatched `expectedVersion` the same call fails with
a version-conflict error.  Both backends. -/
theorem C5_empty_append_version_check {Ev MVal StV Ctx Bts : Type} (etype : Ev → String)
    (s : mem.Store Ev MVal StV Ctx) (ctx : Ctx) (id : String) (md : ges.Metadata MVal)
    (v : Int) (marshalMd : ges.Metadata MVal → Bts) (ps : pgx.EventStore Ev MVal Bts Ctx)
    (db : pgx.PgxDB Bts) :
    (v = mem.Store.currentVersion s id →
      mem.Store.Append etype s ctx id v [] md = (s, Except.ok v)) ∧
    (v ≠ mem.Store.currentVersion s id →
      mem.Store.Append etype s ctx id v [] md
        = (s, Except.error (ges.GoError.versionConflict
            ⟨id, v, mem.Store.currentVersion s id⟩))) ∧
    (v = pgx.pgMaxVersion (db.events id) →
      pgx.EventStore.Append etype marshalMd ps db ctx id v [] md = (db, Except.ok v)) ∧
    (v ≠ pgx.pgMaxVersion (db.events id) →
      pgx.EventStore.Append etype marshalMd ps db ctx id v [] md
        = (db, Except.error (ges.GoError.versionConflict
            ⟨id, v, pgx.pgMaxVersion (db.events id)⟩))) := by
  refine ⟨?_, ?_, ?_, ?_⟩
  · intro hv
    subst hv
    simp [mem.Store.Append, mem.Store.currentVersion]
  · intro hv
    exact mem.Append_conflict etype s ctx id [] md v hv
  · intro hv
    subst hv
    simp [pgx.EventStore.Append]
  · intro hv
    exact pgx.pgxAppend_conflict etype marshalMd ps db ctx id [] md v hv

/-- Witness for C5: empty batch against a fresh store and empty events
table, at matching version 0 and mismatched version 5. -/
theorem C5_witness :
    mem.Store.Append natType memNew () "a" 0 [] mdEmpty = (memNew, Except.ok 0) ∧
    mem.Store.Append natType memNew () "a" 5 [] mdEmpty
      = (memNew, Except.error (ges.GoError.versionConflict ⟨"a", 5, 0⟩)) ∧
    pgx.EventStore.Append natType marshalUnit pgxStoreAll pgDB0 () "a" 0 [] mdEmpty
      = (pgDB0, Except.ok 0) ∧
    pgx.EventStore.Append natType marshalUnit pgxStoreAll pgDB0 () "a" 5 [] mdEmpty
      = (pgDB0, Except.error (ges.GoError.versionConflict ⟨"a", 5, 0⟩)) := by
  have h0 := C5_empty_append_version_check natType memNew () "a" mdEmpty 0 marshalUnit
    pgxStoreAll pgDB0
  have h5 := C5_empty_append_version_check natType memNew () "a" mdEmpty 5 marshalUnit
    pgxStoreAll pgDB0
  exact ⟨h0.1 rfl, h5.2.1 (by decide), h0.2.2.1 rfl, h5.2.2.2 (by decide)⟩

/-- Claim C6 counterexample: with stream `"s"` already at version 1 and
an empty codec registry, a pgx `Append` at stale `expectedVersion` 0
whose batch contains an event with no registered codec fails with a
version-conflict error, not with a missing-codec error: the version
check runs before codec resolution. -/
theorem C6_counterexample :
    pgxStoreNone.typeRegistry (natType 5) = none ∧
    (pgx.EventStore.Append natType marshalUnit pgxStoreNone pgDB1 () "s" 0 [5] mdEmpty).2
      = Except.error (ges.GoError.versionConflict ⟨"s", 0, 1⟩) ∧
    (pgx.EventStore.Append natType marshalUnit pgxStoreNone pgDB1 () "s" 0 [5] mdEmpty).2
      ≠ Except.error (ges.GoError.missingCodec (natType 5)) := by
  have hval : (pgx.EventStore.Append natType marshalUnit pgxStoreNone pgDB1 () "s" 0 [5]
      mdEmpty).2 = Except.error (ges.GoError.versionConflict ⟨"s", 0, 1⟩) := rfl
  refine ⟨rfl, hval, ?_⟩
  intro h
  rw [hval] at h
  simp at h

/-- Claim C6 (amended): for every pgx `Append` call whose
`expectedVersion` matches the stream's current version and whose batch
contains an event whose canonical type name has no codec registered in
the store's registry, `Append` fails with a missing-codec error and
persists none of the batch's events (the transaction rolls back and the
database is returned unchanged). -/
theorem C6_missing_codec_amended {Ev MVal Bts Ctx : Type} (etype : Ev → String)
    (marshalMd : ges.Metadata MVal → Bts) (ps : pgx.EventStore Ev MVal Bts Ctx)
    (db : pgx.PgxDB Bts) (ctx : Ctx) (id : String) (evs : List Ev)
    (md : ges.Metadata MVal) (v : Int)
    (hv : v = pgx.pgMaxVersion (db.events id))
    (hmiss : ∃ e ∈ evs, ps.typeRegistry (etype e) = none) :
    ∃ t, pgx.EventStore.Append etype marshalMd ps db ctx id v evs md
        = (db, Except.error (ges.GoError.missingCodec t)) := by
  subst hv
  have h0 : ¬(evs.length = 0) := by
    rcases hmiss with ⟨e, he, _⟩
    intro hx
    rcases List.length_eq_zero.mp hx with rfl
    simp at he
  obtain ⟨t, ht⟩ := pgx.pgxInsertLoop_missing etype ps.typeRegistry id
    (pgx.pgMaxVersion (db.events id))
    (marshalMd (match ps.extractor with
      | some ex => (ex ctx).Merge [md]
      | none => md))
    evs (db.events id) (pgx.pgMaxVersion (db.events id))
    (pgx.mem_le_pgMax (db.events id)) hmiss
  refine ⟨t, ?_⟩
  simp only [pgx.EventStore.Append]
  rw [if_neg (by simp), if_neg h0, ht]

/-- Witness for C6 (amended): stream `"s"` at version 1, matching
expected version 1, empty registry. -/
theorem C6_witness :
    ∃ t, pgx.EventStore.Append natType marshalUnit pgxStoreNone pgDB1 () "s" 1 [5] mdEmpty
        = (pgDB1, Except.error (ges.GoError.missingCodec t)) :=
  C6_missing_codec_amended natType marshalUnit pgxStoreNone pgDB1 () "s" [5] mdEmpty 1
    (by decide) ⟨5, by decide, rfl⟩

/-- Merging exactly one map: lookup is right-biased. -/
theorem Merge_pair_lookup {MVal : Type} (m n : ges.Metadata MVal) (k : String) :
    ges.Metadata.Merge m [n] k = match n k with
      | some x => some x
      | none => m k := rfl

/-- Claim C7: metadata merge is right-biased — `(m.Merge(n))[k]` is
`n[k]` for every key present in `n` and `m[k]` otherwise — and, being a
pure function building a fresh map, mutates neither input; when
`Append` merges extractor-derived metadata with the explicitly passed
metadata the explicit keys win (every stored event of a successful
append carries `extracted.Merge(explicit)`), and the spec's concrete
scenario holds: `{tenant:"t1", user:"u1"}` merged with `{user:"u2"}`
yields `{tenant:"t1", user:"u2"}`. -/
theorem C7_metadata_merge_right_bias {Ev MVal StV Ctx : Type} (etype : Ev → String)
    (m n : ges.Metadata MVal) (k : String) (f : ges.MetadataExtractor Ctx MVal)
    (s : mem.Store Ev MVal StV Ctx) (ctx : Ctx) (id : String) (v nv : Int)
    (evs : List Ev) (md : ges.Metadata MVal) :
    (ges.Metadata.Merge m [n] k = match n k with
      | some x => some x
      | none => m k) ∧
    (∀ k', ges.Metadata.Merge tenantMeta [userMeta] k' = mergedMetaExpected k') ∧
    (s.extractor = some f →
      (mem.Store.Append etype s ctx id v evs md).2 = Except.ok nv →
      ∀ r ∈ ((mem.Store.Append etype s ctx id v evs md).1.streams id).drop
          (s.streams id).length,
        r.metadata = (f ctx).Merge [md]) := by
  refine ⟨rfl, ?_, ?_⟩
  · intro k'
    rw [Merge_pair_lookup tenantMeta userMeta k']
    unfold userMeta tenantMeta mergedMetaExpected
    by_cases h1 : k' = "user"
    · simp [h1]
    · by_cases h2 : k' = "tenant"
      · simp [h1, h2]
      · simp [h1, h2]
  · intro hex hok
    by_cases hv : v = mem.Store.currentVersion s id
    · have hspec := mem.Append_ok_spec etype s ctx id evs md v hv
      intro r hr
      rw [hspec.2.1, List.drop_left] at hr
      have hmd := mem.mkRows_metadata etype evs v (mem.effectiveMd s ctx md) r hr
      rw [hmd]
      simp [mem.effectiveMd, hex]
    · rw [mem.Append_conflict etype s ctx id evs md v hv] at hok
      exact absurd hok (by simp)

/-- Witness for C7: a store whose extractor yields `{tenant:"t1",
user:"u1"}`, appending with explicit `{user:"u2"}`. -/
theorem C7_witness :
    ges.Metadata.Merge tenantMeta [userMeta] "user" = some "u2" ∧
    ∀ r ∈ ((mem.Store.Append natType memWithExtractor () "a" 0 [5] userMeta).1.streams
        "a").drop (memWithExtractor.streams "a").length,
      r.metadata = ges.Metadata.Merge tenantMeta [userMeta] := by
  have h := @C7_metadata_merge_right_bias Nat String Nat Unit natType tenantMeta userMeta
    "user" (fun _ => tenantMeta) memWithExtractor () "a" 0 1 [5] userMeta
  exact ⟨h.1.trans (by decide), h.2.2 rfl rfl⟩

/-- mem `Append` never touches the snapshots map. -/
theorem mem_Append_snapshots {Ev MVal StV Ctx : Type} (etype : Ev → String)
    (s : mem.Store Ev MVal StV Ctx) (ctx : Ctx) (id : String) (v : Int) (evs : List Ev)
    (md : ges.Metadata MVal) :
    ((mem.Store.Append etype s ctx id v evs md).1).snapshots = s.snapshots := by
  by_cases hv : v = mem.Store.currentVersion s id
  · exact (mem.Append_ok_spec etype s ctx id evs md v hv).2.2.2.1
  · rw [mem.Append_conflict etype s ctx id evs md v hv]

/-- If no `SaveSnapshot` op targets a stream, running the ops leaves
that stream's snapshot entry absent. -/
theorem run_no_save_snapshots_none {Ev MVal StV Ctx : Type} (etype : Ev → String)
    (id : String) (ops : List (mem.Op Ev MVal StV Ctx)) :
    ∀ s : mem.Store Ev MVal StV Ctx, (∀ v st, mem.Op.saveSnapshot id v st ∉ ops) →
      s.snapshots id = none → (mem.Store.run etype s ops).snapshots id = none := by
  induction ops with
  | nil => intro s _ h; exact h
  | cons op rest ih =>
      intro s hno h
      show (mem.Store.run etype (mem.Store.step etype s op) rest).snapshots id = none
      apply ih
      · intro v st hmem
        exact hno v st (List.mem_cons_of_mem op hmem)
      · cases op with
        | append ctx sid v evs md =>
            rw [show mem.Store.step etype s (mem.Op.append ctx sid v evs md)
              = (mem.Store.Append etype s ctx sid v evs md).1 from rfl,
              mem_Append_snapshots]
            exact h
        | load sid fv => exact h
        | saveSnapshot sid v st =>
            show (if id = sid then some ⟨v, st⟩ else s.snapshots id) = none
            have hne : id ≠ sid := by
              intro hh
              subst hh
              exact hno v st (List.mem_cons_self _ _)
            rw [if_neg hne]
            exact h
        | loadSnapshot sid => exact h

/-- Claim C8: `LoadSnapshot` on a store in which no `SaveSnapshot` for
the stream has occurred returns `Found = false` (zero state and
version) with no error; and after `SaveSnapshot(streamID, v, state)` —
which replaces any earlier snapshot — `LoadSnapshot(streamID)` returns
`Found = true` with that state and version. -/
theorem C8_snapshot_roundtrip {Ev MVal StV Ctx : Type} (etype : Ev → String)
    (ex : Option (ges.MetadataExtractor Ctx MVal)) (ops : List (mem.Op Ev MVal StV Ctx))
    (id : String) (s : mem.Store Ev MVal StV Ctx) (v : Int) (st : StV)
    (hns : ∀ v' st', mem.Op.saveSnapshot id v' st' ∉ ops) :
    mem.Store.LoadSnapshot (mem.Store.run etype (mem.Store.New ex) ops) id
      = (⟨none, 0, false⟩, none) ∧
    mem.Store.LoadSnapshot (mem.Store.SaveSnapshot s id v st) id
      = (⟨some st, v, true⟩, none) := by
  constructor
  · have h := run_no_save_snapshots_none etype id ops (mem.Store.New ex) hns rfl
    simp [mem.Store.LoadSnapshot, h]
  · simp [mem.Store.LoadSnapshot, mem.Store.SaveSnapshot]

/-- Witness for C8: an append-only history (no snapshot saved), then a
save-and-load round trip. -/
theorem C8_witness :
    mem.Store.LoadSnapshot
        (mem.Store.run natType (mem.Store.New none : mem.Store Nat String Nat Unit)
          [mem.Op.append () "a" 0 [5] mdEmpty]) "a"
      = (⟨none, 0, false⟩, none) ∧
    mem.Store.LoadSnapshot (mem.Store.SaveSnapshot memNew "a" 1 42) "a"
      = (⟨some 42, 1, true⟩, none) := by
  have h := C8_snapshot_roundtrip natType none [mem.Op.append () "a" 0 [5] mdEmpty] "a"
    memNew 1 42 (by intro v' st' hmem; simp at hmem)
  exact ⟨h.1, h.2⟩

/-- Claim C10: every version-conflict error either backend's `Append`
produces is a `*VersionConflictError` (constructor
`GoError.versionConflict`), `errors.Is(err, ErrVersionConflict)` holds
of every such error, and the `Is` method matches exactly the
`ErrVersionConflict` sentinel. -/
theorem C10_version_conflict_errors {Ev MVal StV Ctx Bts : Type} (etype : Ev → String)
    (s : mem.Store Ev MVal StV Ctx) (ctx : Ctx) (id : String) (v : Int) (evs : List Ev)
    (md : ges.Metadata MVal) (marshalMd : ges.Metadata MVal → Bts)
    (ps : pgx.EventStore Ev MVal Bts Ctx) (db : pgx.PgxDB Bts) (err errp : ges.GoError) :
    ((mem.Store.Append etype s ctx id v evs md).2 = Except.error err →
      (∃ e, err = ges.GoError.versionConflict e) ∧
        ges.errorsIs err ges.ErrVersionConflict = true) ∧
    ((pgx.EventStore.Append etype marshalMd ps db ctx id v evs md).2 = Except.error errp →
      (ges.errorsIs errp ges.ErrVersionConflict = true ↔
        ∃ e, errp = ges.GoError.versionConflict e)) ∧
    (∀ (e : ges.VersionConflictError) (t : ges.GoError),
      e.goIs t = true ↔ t = ges.ErrVersionConflict) := by
  have hVC : ∀ e : ges.VersionConflictError,
      ges.errorsIs (ges.GoError.versionConflict e) ges.ErrVersionConflict = true := by
    intro e
    rfl
  refine ⟨?_, ?_, ?_⟩
  · intro h
    by_cases hv : v = mem.Store.currentVersion s id
    · have hok := (mem.Append_ok_spec etype s ctx id evs md v hv).1
      rw [h] at hok
      exact absurd hok (by simp)
    · rw [mem.Append_conflict etype s ctx id evs md v hv] at h
      injection h with h'
      exact ⟨⟨_, h'.symm⟩, by rw [← h']; exact hVC _⟩
  · intro h
    rcases pgx.pgxAppend_error_shape etype marshalMd ps db ctx id evs md v errp h with
      ⟨e, rfl⟩ | ⟨t, rfl⟩
    · exact ⟨fun _ => ⟨e, rfl⟩, fun _ => hVC e⟩
    · constructor
      · intro hh
        simp [ges.errorsIs, ges.ErrVersionConflict] at hh
      · rintro ⟨e, he⟩
        simp at he
  · intro e t
    simp [ges.VersionConflictError.goIs]

/-- Witness for C10: a conflicting empty-batch append against each
backend at stale expected version 5. -/
theorem C10_witness :
    ((∃ e, ges.GoError.versionConflict ⟨"a", 5, 0⟩ = ges.GoError.versionConflict e) ∧
      ges.errorsIs (ges.GoError.versionConflict ⟨"a", 5, 0⟩) ges.ErrVersionConflict
        = true) ∧
    (ges.errorsIs (ges.GoError.versionConflict ⟨"a", 5, 0⟩) ges.ErrVersionConflict = true ↔
      ∃ e, ges.GoError.versionConflict ⟨"a", 5, 0⟩ = ges.GoError.versionConflict e) := by
  have h := @C10_version_conflict_errors Nat String Nat Unit Unit natType memNew () "a" 5
    [] mdEmpty marshalUnit pgxStoreAll pgDB0
    (ges.GoError.versionConflict ⟨"a", 5, 0⟩) (ges.GoError.versionConflict ⟨"a", 5, 0⟩)
  exact ⟨h.1 rfl, h.2.1 rfl⟩
